import Mathlib

/- A shallow embedding of the ring-buffer container of RingBuffer.h
   (harz::Containers::RingBufferImplementation::RingBuffer together with the
   companion iterator harz::Containers::Iterators::TIndexedIteratorBase).

   Modelling conventions:
   - size_t values are natural numbers; wherever the source performs size_t
     arithmetic that can wrap, the model uses explicit arithmetic modulo 2^64
     (wadd / wsub below).  InvalidIndex is size_t(-1) = 2^64 - 1.
   - The raw storage MemoryBlock is a list of bytes; an element of the stored
     value type ValueT occupies es consecutive bytes (es = sizeof(ValueT)),
     so a value is a list of es bytes.  This keeps the byte-level behaviour of
     memcpy_s in Resize observable.
   - MemoryBlock being null is the Bool field alive.  PointToValueAtIndex
     returns none exactly when the source returns nullptr; an operation of the
     source that writes through such a null pointer is modelled as failure
     (none), since the source would crash there.
   - The allocator is modelled by passing the allocation outcome to Resize /
     to the sized constructor: none for a failed allocation, or some junk with
     the (arbitrary) initial bytes of the fresh block. -/

namespace RingBufferModel

/-- Number of values of size_t: 2 ^ 64. -/
def SIZE : Nat := 2 ^ 64

/-- RingBuffer::InvalidIndex(), i.e. size_t(-1). -/
def InvalidIndex : Nat := SIZE - 1

/-- Wrapping size_t addition. -/
def wadd (a b : Nat) : Nat := (a + b) % SIZE

/-- Wrapping size_t subtraction, for operands below 2 ^ 64. -/
def wsub (a b : Nat) : Nat := (a + SIZE - b) % SIZE

/-- The state of a RingBuffer<ValueT, AllocatorT>: the MemoryBlock pointer
(alive = non-null, mem = the bytes it points to), capacity, head and
elementsInside. -/
structure RB where
  alive : Bool
  mem : List Nat
  capacity : Nat
  head : Nat
  elementsInside : Nat
deriving DecidableEq

/-- Reading the es bytes of the element stored at physical index i
(dereferencing ValueT* number i of the block). -/
def readElem (es : Nat) (mem : List Nat) (i : Nat) : List Nat :=
  (mem.drop (i * es)).take es

/-- Overwriting the es bytes of the element stored at physical index i
(assignment through ValueT* number i of the block). -/
def writeElem (es : Nat) (mem : List Nat) (i : Nat) (v : List Nat) : List Nat :=
  mem.take (i * es) ++ v ++ mem.drop (i * es + es)

/-- A default-constructed (zero-initialized) element, the source's ValueT
with empty braces. -/
def defaultVal (es : Nat) : List Nat := List.replicate es 0

/-- RingBuffer::GetTailIndex. -/
def GetTailIndex (s : RB) : Nat :=
  if s.capacity = 0 then InvalidIndex
  else if s.head = InvalidIndex then InvalidIndex
  else if s.elementsInside = 1 then s.head
  else if s.head < wsub s.elementsInside 1 then
    wsub s.capacity (wsub (wsub s.elementsInside s.head) 1)
  else wsub s.head (wsub s.elementsInside 1)

/-- RingBuffer::IsIndexValid, with the source's condition reproduced clause by
clause (&& binds tighter than ||). -/
def IsIndexValid (s : RB) (i : Nat) : Bool :=
  if s.capacity ≤ i ∨ s.elementsInside = 0 ∨ i = InvalidIndex
      ∨ (i < GetTailIndex s ∧ s.head < i)
      ∨ (GetTailIndex s < i ∧ s.head < i ∧ GetTailIndex s ≤ s.head)
    then false else true

/-- RingBuffer::PointToValueAtIndex: none models the nullptr result for an
index at or past capacity. -/
def PointToValueAtIndex (s : RB) (i : Nat) : Option Nat :=
  if s.capacity ≤ i then none else some i

/-- RingBuffer::GetNextHeadIndex. -/
def GetNextHeadIndex (s : RB) : Nat :=
  if s.capacity = 0 ∨ s.capacity = s.elementsInside then InvalidIndex
  else if s.head = wsub s.capacity 1 then 0 else wadd s.head 1

/-- RingBuffer::GetNextTailIndex. -/
def GetNextTailIndex (s : RB) : Nat :=
  if s.capacity = 0 ∨ s.capacity = s.elementsInside then InvalidIndex
  else if GetTailIndex s = 0 then wsub s.capacity 1 else wsub (GetTailIndex s) 1

/-- RingBuffer::PushBack.  The result is none when the source would write the
value through the nullptr returned by PointToValueAtIndex. -/
def PushBack (es : Nat) (v : List Nat) (s : RB) : Option (Nat × RB) :=
  if s.alive = true ∧ s.elementsInside < s.capacity then
    let idx := if GetTailIndex s = InvalidIndex then 0 else GetNextTailIndex s
    match PointToValueAtIndex s idx with
    | none => none
    | some p =>
        some (idx,
          { s with mem := writeElem es s.mem p v,
                   elementsInside := wadd s.elementsInside 1,
                   head := if s.head = InvalidIndex then idx else s.head })
  else some (InvalidIndex, s)

/-- RingBuffer::EmplaceBack.  std::swap moves the value into the slot, so the
effect on the buffer is the same write as PushBack. -/
def EmplaceBack (es : Nat) (v : List Nat) (s : RB) : Option (Nat × RB) :=
  if s.alive = true ∧ s.elementsInside < s.capacity then
    let idx := if GetTailIndex s = InvalidIndex then 0 else GetNextTailIndex s
    match PointToValueAtIndex s idx with
    | none => none
    | some p =>
        some (idx,
          { s with mem := writeElem es s.mem p v,
                   elementsInside := wadd s.elementsInside 1,
                   head := if s.head = InvalidIndex then idx else s.head })
  else some (InvalidIndex, s)

/-- RingBuffer::PushFront. -/
def PushFront (es : Nat) (v : List Nat) (s : RB) : Option (Nat × RB) :=
  if s.alive = true ∧ s.elementsInside < s.capacity then
    let idx := if s.head = InvalidIndex then 0 else GetNextHeadIndex s
    match PointToValueAtIndex s idx with
    | none => none
    | some p =>
        some (idx,
          { s with mem := writeElem es s.mem p v,
                   head := idx,
                   elementsInside := wadd s.elementsInside 1 })
  else some (InvalidIndex, s)

/-- RingBuffer::EmplaceFront (swap semantics, same buffer effect as
PushFront). -/
def EmplaceFront (es : Nat) (v : List Nat) (s : RB) : Option (Nat × RB) :=
  if s.alive = true ∧ s.elementsInside < s.capacity then
    let idx := if s.head = InvalidIndex then 0 else GetNextHeadIndex s
    match PointToValueAtIndex s idx with
    | none => none
    | some p =>
        some (idx,
          { s with mem := writeElem es s.mem p v,
                   head := idx,
                   elementsInside := wadd s.elementsInside 1 })
  else some (InvalidIndex, s)

/-- RingBuffer::PopFront.  Note the source's backward step is
head - 1 % capacity, i.e. head - (1 % capacity), reproduced verbatim; the
returned value is read through the Result pointer captured before the index
update (the memory itself is not modified), or ValueT{} if Result is null. -/
def PopFront (es : Nat) (s : RB) : List Nat × RB :=
  if s.head = InvalidIndex then (defaultVal es, s)
  else
    let Result := PointToValueAtIndex s s.head
    let s1 :=
      if 1 < s.elementsInside then
        { s with elementsInside := wsub s.elementsInside 1,
                 head := if s.head = 0 then wsub s.capacity 1
                         else wsub s.head (1 % s.capacity) }
      else { s with head := InvalidIndex, elementsInside := 0 }
    match Result with
    | some p => (readElem es s.mem p, s1)
    | none => (defaultVal es, s1)

/-- RingBuffer::PopBack. -/
def PopBack (es : Nat) (s : RB) : List Nat × RB :=
  if GetTailIndex s = InvalidIndex then (defaultVal es, s)
  else
    let Result := PointToValueAtIndex s (GetTailIndex s)
    let s1 :=
      if 1 < s.elementsInside then
        { s with elementsInside := wsub s.elementsInside 1 }
      else { s with head := InvalidIndex, elementsInside := 0 }
    match Result with
    | some p => (readElem es s.mem p, s1)
    | none => (defaultVal es, s1)

/-- RingBuffer::Clear. -/
def Clear (s : RB) : RB :=
  { s with head := InvalidIndex, elementsInside := 0 }

/-- RingBuffer::LookAtIndex (same guarding condition as IsIndexValid; some v
models the non-null pointer to the element's bytes). -/
def LookAtIndex (es : Nat) (s : RB) (i : Nat) : Option (List Nat) :=
  if s.capacity ≤ i ∨ s.elementsInside = 0 ∨ i = InvalidIndex
      ∨ (i < GetTailIndex s ∧ s.head < i)
      ∨ (GetTailIndex s < i ∧ s.head < i ∧ GetTailIndex s ≤ s.head)
    then none
  else some (readElem es s.mem i)

/-- detail::CopyMemory (memcpy_s): copy n bytes from the start of src over the
start of dst. -/
def CopyMemory (src dst : List Nat) (n : Nat) : List Nat :=
  src.take n ++ dst.drop n

/-- The element-by-element copy loops of the wrapped branch of
RingBuffer::Resize: the elements of src at the listed physical indices are
assigned into dst at consecutive indices starting at k. -/
def copyElems (es : Nat) (src : List Nat) (idxs : List Nat) (k : Nat)
    (dst : List Nat) : List Nat :=
  match idxs with
  | [] => dst
  | i :: rest => copyElems es src rest (k + 1) (writeElem es dst k (readElem es src i))

/-- RingBuffer::Resize.  fresh is the allocator's answer for the new block
(none = allocation failure, some newMem = the fresh bytes).  Note the
non-wrapped branch copies head + 1 * es bytes, reproducing the source's
head + 1 * sizeof(ValueT). -/
def Resize (es : Nat) (fresh : Option (List Nat)) (NewCapacity : Nat) (s : RB) :
    Bool × RB :=
  if 0 < NewCapacity ∧ NewCapacity ≠ InvalidIndex ∧ s.elementsInside ≤ NewCapacity then
    match fresh with
    | none => (false, s)
    | some newMem =>
        if s.alive = true then
          if 0 < s.elementsInside ∧ s.head ≠ InvalidIndex then
            let TailIndex := if GetTailIndex s ≠ InvalidIndex then GetTailIndex s else 0
            if s.head < TailIndex then
              (true,
                { alive := true,
                  mem := copyElems es s.mem
                           (List.range' TailIndex (s.capacity - TailIndex) ++
                             List.range (s.head + 1)) 0 newMem,
                  capacity := NewCapacity,
                  head := wsub s.elementsInside 1,
                  elementsInside := s.elementsInside })
            else
              (true,
                { alive := true,
                  mem := CopyMemory s.mem newMem (wadd s.head (1 * es)),
                  capacity := NewCapacity,
                  head := s.head,
                  elementsInside := s.elementsInside })
          else
            (true, { alive := true, mem := newMem, capacity := NewCapacity,
                     head := s.head, elementsInside := s.elementsInside })
        else
          (true, { alive := true, mem := newMem, capacity := NewCapacity,
                   head := s.head, elementsInside := s.elementsInside })
  else (false, s)

/-- Iterators::EIndexedAccessIteratorPosition. -/
inductive EIndexedAccessIteratorPosition where
  | Begin
  | End
  | InRange
  | Invalid
deriving DecidableEq

/-- The state of a TIndexedIteratorBase: its physical Index and Position tag
(the container back-pointer is passed to each operation instead of being
stored). -/
structure Iter where
  Index : Nat
  Position : EIndexedAccessIteratorPosition
deriving DecidableEq

/-- RingBuffer::GetNextIndexIter (the single-step overload). -/
def GetNextIndexIter (s : RB) (index : Nat) : Nat :=
  if index = InvalidIndex then InvalidIndex
  else
    let i :=
      if s.head < GetTailIndex s then
        if index = wsub s.capacity 1 then 0 else wadd index 1
      else wadd index 1
    if IsIndexValid s i = true then i else InvalidIndex

/-- RingBuffer::GetPreviousIndexIter (the single-step overload; index-- on a
size_t wraps to size_t(-1) when index is 0 in the non-wrapped branch). -/
def GetPreviousIndexIter (s : RB) (index : Nat) : Nat :=
  if index = InvalidIndex then InvalidIndex
  else
    let i :=
      if s.head < GetTailIndex s then
        if index = 0 then wsub s.capacity 1 else wsub index 1
      else wsub index 1
    if IsIndexValid s i = true then i else InvalidIndex

/-- TIndexedIteratorBase::operator++ over buffer s.  The Begin case of the
switch falls through into the InRange case; after the switch, an InvalidIndex
index forces Position to End. -/
def opInc (s : RB) (it : Iter) : Iter :=
  let t :=
    match it.Position with
    | EIndexedAccessIteratorPosition.Begin =>
        { Index := GetNextIndexIter s it.Index,
          Position := EIndexedAccessIteratorPosition.InRange }
    | EIndexedAccessIteratorPosition.InRange =>
        { it with Index := GetNextIndexIter s it.Index }
    | EIndexedAccessIteratorPosition.End =>
        { Index := InvalidIndex, Position := EIndexedAccessIteratorPosition.Invalid }
    | EIndexedAccessIteratorPosition.Invalid => it
  if t.Index = InvalidIndex then
    { t with Position := EIndexedAccessIteratorPosition.End }
  else t

/-- TIndexedIteratorBase::operator-- over buffer s (End moves to InRange at
GetEndIndex() = head; after the switch, an InvalidIndex index forces Position
to Begin). -/
def opDec (s : RB) (it : Iter) : Iter :=
  let t :=
    match it.Position with
    | EIndexedAccessIteratorPosition.Begin =>
        { Index := InvalidIndex, Position := EIndexedAccessIteratorPosition.Invalid }
    | EIndexedAccessIteratorPosition.End =>
        { Index := s.head, Position := EIndexedAccessIteratorPosition.InRange }
    | EIndexedAccessIteratorPosition.InRange =>
        { it with Index := GetPreviousIndexIter s it.Index }
    | EIndexedAccessIteratorPosition.Invalid => it
  if t.Index = InvalidIndex then
    { t with Position := EIndexedAccessIteratorPosition.Begin }
  else t

/-- RingBuffer::end(): index InvalidIndex, position End. -/
def endIter : Iter :=
  ⟨InvalidIndex, EIndexedAccessIteratorPosition.End⟩

/-- RingBuffer::begin(): at GetBeginIndex() = GetTailIndex() with position
Begin when non-empty, otherwise end(). -/
def beginIter (s : RB) : Iter :=
  if s.elementsInside ≠ 0 then ⟨GetTailIndex s, EIndexedAccessIteratorPosition.Begin⟩
  else endIter

/-- One public mutating call on the buffer, used to quantify over operation
sequences.  A resize op carries the allocator's answer for that call. -/
inductive Op where
  | pushB (v : List Nat)
  | pushF (v : List Nat)
  | emplB (v : List Nat)
  | emplF (v : List Nat)
  | popF
  | popB
  | clear
  | resize (fresh : Option (List Nat)) (n : Nat)

/-- A realistic operation: a resize target is a size_t value (below 2 ^ 64). -/
def OpOK : Op → Bool
  | Op.resize _ n => decide (n < SIZE)
  | _ => true

/-- Run one operation (none = the operation would crash on a null-pointer
write). -/
def applyOp (es : Nat) (op : Op) (s : RB) : Option RB :=
  match op with
  | Op.pushB v => match PushBack es v s with | some r => some r.2 | none => none
  | Op.pushF v => match PushFront es v s with | some r => some r.2 | none => none
  | Op.emplB v => match EmplaceBack es v s with | some r => some r.2 | none => none
  | Op.emplF v => match EmplaceFront es v s with | some r => some r.2 | none => none
  | Op.popF => some (PopFront es s).2
  | Op.popB => some (PopBack es s).2
  | Op.clear => some (Clear s)
  | Op.resize fresh n => some (Resize es fresh n s).2

/-- Run a sequence of operations. -/
def applyOps (es : Nat) (ops : List Op) (s : RB) : Option RB :=
  match ops with
  | [] => some s
  | op :: rest =>
      match applyOp es op s with
      | some s1 => applyOps es rest s1
      | none => none

/-- Repeated PushBack calls, each required to succeed (to return an index
other than the sentinel). -/
def pushAll (es : Nat) (vs : List (List Nat)) (s : RB) : Option RB :=
  match vs with
  | [] => some s
  | v :: rest =>
      match PushBack es v s with
      | some r => if r.1 = InvalidIndex then none else pushAll es rest r.2
      | none => none

/-- The representation invariant of a well-formed buffer: occupancy within
capacity, capacity a representable size below the sentinel, the head sentinel
exactly on emptiness, head inside storage when occupied, and storage of
capacity * es bytes behind a non-null block whenever capacity is positive. -/
def WF (es : Nat) (s : RB) : Prop :=
  s.elementsInside ≤ s.capacity ∧ s.capacity < InvalidIndex ∧
  (s.head = InvalidIndex ↔ s.elementsInside = 0) ∧
  (0 < s.elementsInside → s.head < s.capacity) ∧
  (0 < s.capacity → s.alive = true ∧ s.mem.length = s.capacity * es)

/-- The part of the state invariant tracked across arbitrary operation
sequences: the claimed capacity bound and head-sentinel law, plus the bounds
that make them inductive. -/
def CInv (s : RB) : Prop :=
  s.elementsInside ≤ s.capacity ∧ s.capacity < InvalidIndex ∧
  (s.head = InvalidIndex ↔ s.elementsInside = 0) ∧ s.head < SIZE

/-- States produced by the constructors: either no storage was obtained
(default constructor, zero/sentinel requested capacity, allocation failure:
capacity 0, empty, head sentinel), or a block of capacity * es bytes was
allocated for a positive representable capacity. -/
def Constructed (es : Nat) (s : RB) : Prop :=
  (s.capacity = 0 ∧ s.head = InvalidIndex ∧ s.elementsInside = 0) ∨
  (s.alive = true ∧ 0 < s.capacity ∧ s.capacity < InvalidIndex ∧
    s.head = InvalidIndex ∧ s.elementsInside = 0 ∧
    s.mem.length = s.capacity * es)

instance (es : Nat) (s : RB) : Decidable (WF es s) := by
  unfold WF; infer_instance

instance (s : RB) : Decidable (CInv s) := by
  unfold CInv; infer_instance

instance (es : Nat) (s : RB) : Decidable (Constructed es s) := by
  unfold Constructed; infer_instance

end RingBufferModel

namespace RingBufferModel

theorem SIZE_eq : SIZE = 18446744073709551616 := by norm_num [SIZE]

theorem InvalidIndex_eq : InvalidIndex = 18446744073709551615 := by
  norm_num [InvalidIndex, SIZE]

theorem wadd_small (a b : Nat) (h : a + b < SIZE) : wadd a b = a + b := by
  unfold wadd
  exact Nat.mod_eq_of_lt h

theorem wsub_small (a b : Nat) (hba : b ≤ a) (ha : a < SIZE) : wsub a b = a - b := by
  unfold wsub
  have h1 : a + SIZE - b = SIZE + (a - b) := by omega
  rw [h1, Nat.add_mod_left]
  exact Nat.mod_eq_of_lt (by omega)

theorem writeElem_length (es : Nat) (mem v : List Nat) (i : Nat)
    (hv : v.length = es) (hle : i * es + es ≤ mem.length) :
    (writeElem es mem i v).length = mem.length := by
  unfold writeElem
  simp only [List.length_append, List.length_take, List.length_drop, hv]
  omega

theorem readElem_writeElem_zero (es : Nat) (mem v : List Nat) (hv : v.length = es) :
    readElem es (writeElem es mem 0 v) 0 = v := by
  unfold readElem writeElem
  simp only [Nat.zero_mul, Nat.zero_add, List.take_zero, List.drop_zero,
    List.nil_append]
  rw [← hv, List.take_left]

end RingBufferModel

namespace RingBufferModel

/-- The buffer obtained from a fresh capacity-4 buffer of 1-byte elements
(zeroed junk) by push_back 1, push_back 2, push_back 3, pop_front: head 3,
two elements, occupied arc {2, 3}, non-wrapped with tail 2 > 0. -/
def sC2 : RB := ⟨true, [1, 0, 3, 2], 4, 3, 2⟩

/-- Claim C2: for every non-empty buffer, IsIndexValid(i) is true and
LookAtIndex(i) non-null iff i lies on the circular arc from tail to head.
This is false on the code: in the reachable state sC2 (capacity 4, head 3,
count 2, tail 2, non-wrapped), the unoccupied indices 0 and 1 below the tail
also test valid and LookAtIndex returns non-null for them, so all 4 physical
indices test occupied while only 2 elements are inside. -/
theorem claim_C2_isIndexValid_overapproximates :
    applyOps 1 [Op.pushB [1], Op.pushB [2], Op.pushB [3], Op.popF]
        ⟨true, [0, 0, 0, 0], 4, InvalidIndex, 0⟩ = some sC2 ∧
    GetTailIndex sC2 = 2 ∧ sC2.head = 3 ∧ sC2.elementsInside = 2 ∧
    IsIndexValid sC2 0 = true ∧ IsIndexValid sC2 1 = true ∧
    LookAtIndex 1 sC2 0 = some [1] ∧ LookAtIndex 1 sC2 1 = some [0] ∧
    ((List.range 4).filter fun i => IsIndexValid sC2 i).length = 4 := by
  decide

/-- The full wrapped buffer obtained from a fresh capacity-2 buffer of 1-byte
elements by push_back 5, push_back 6: head 0, tail 1, count 2 = capacity. -/
def sC3 : RB := ⟨true, [5, 6], 2, 0, 2⟩

/-- Claim C3: forward iteration from Begin first lands InRange on the tail and
reaches End after visiting the count occupied indices.  This is false on the
code: on the reachable full wrapped buffer sC3 (capacity 2, tail 1 > head 0),
the first next() from Begin lands InRange at index 0 = head (not at the tail),
and stepping is 2-periodic among InRange states (the step from head wraps back
into the still-valid tail), so repeated next() never reaches End. -/
theorem claim_C3_full_wrapped_iteration_cycles :
    applyOps 1 [Op.pushB [5], Op.pushB [6]] ⟨true, [0, 0], 2, InvalidIndex, 0⟩ =
      some sC3 ∧
    GetTailIndex sC3 = 1 ∧ sC3.head = 0 ∧ sC3.elementsInside = 2 ∧
    beginIter sC3 = ⟨1, EIndexedAccessIteratorPosition.Begin⟩ ∧
    opInc sC3 (beginIter sC3) = ⟨0, EIndexedAccessIteratorPosition.InRange⟩ ∧
    opInc sC3 (opInc sC3 (beginIter sC3)) =
      ⟨1, EIndexedAccessIteratorPosition.InRange⟩ ∧
    opInc sC3 (opInc sC3 (opInc sC3 (beginIter sC3))) = opInc sC3 (beginIter sC3) := by
  decide

/-- The buffer of 4-byte elements obtained from a fresh capacity-2 buffer by
push_back 0xAAAAAAAA, push_front 0xBBBBBBBB: non-wrapped layout, tail 0,
head 1, both slots occupied. -/
def sC1 : RB := ⟨true, [170, 170, 170, 170, 187, 187, 187, 187], 2, 1, 2⟩

/-- Claim C1: a successful Resize preserves contents and order.  This is false
on the code for elements wider than one byte: in the non-wrapped branch the
source copies head + 1 * sizeof(ValueT) bytes (operator precedence) instead of
(head + 1) * sizeof(ValueT).  On the reachable buffer sC1 (two 4-byte
elements, head 1), Resize to capacity 4 succeeds but copies only 5 of the 8
occupied bytes into the new block, so the element at the preserved head index
1 reads back as 187,0,0,0 instead of 187,187,187,187: contents are not
preserved. -/
theorem claim_C1_resize_loses_contents :
    PushBack 4 [170, 170, 170, 170] ⟨true, List.replicate 8 0, 2, InvalidIndex, 0⟩ =
      some (0, ⟨true, [170, 170, 170, 170, 0, 0, 0, 0], 2, 0, 1⟩) ∧
    PushFront 4 [187, 187, 187, 187] ⟨true, [170, 170, 170, 170, 0, 0, 0, 0], 2, 0, 1⟩ =
      some (1, sC1) ∧
    GetTailIndex sC1 = 0 ∧
    LookAtIndex 4 sC1 1 = some [187, 187, 187, 187] ∧
    (Resize 4 (some (List.replicate 16 0)) 4 sC1).1 = true ∧
    (Resize 4 (some (List.replicate 16 0)) 4 sC1).2.head = 1 ∧
    LookAtIndex 4 (Resize 4 (some (List.replicate 16 0)) 4 sC1).2 1 =
      some [187, 0, 0, 0] ∧
    LookAtIndex 4 (Resize 4 (some (List.replicate 16 0)) 4 sC1).2 1 ≠
      LookAtIndex 4 sC1 1 := by
  decide

/-- Claim C4 counterexample: the claim says next() on an End iterator leaves it
in the Invalid state, but on any buffer (here an empty capacity-1 buffer) the
incremented end iterator is back at position End, not Invalid. -/
theorem claim_C4_counterexample :
    (opInc ⟨true, [0], 1, InvalidIndex, 0⟩ endIter).Position =
      EIndexedAccessIteratorPosition.End ∧
    opInc ⟨true, [0], 1, InvalidIndex, 0⟩ endIter ≠
      ⟨InvalidIndex, EIndexedAccessIteratorPosition.Invalid⟩ := by
  decide

/-- Claim C4 (amended): for every iterator at position End, operator++ sets the
index to the invalid sentinel and transiently tags the position Invalid, but
the final normalization (index = InvalidIndex forces position End) immediately
overwrites the tag, so the iterator ends at index InvalidIndex in position End
(it remains at End, never Invalid). -/
theorem claim_C4_end_step_stays_end (s : RB) (it : Iter)
    (h : it.Position = EIndexedAccessIteratorPosition.End) :
    opInc s it = ⟨InvalidIndex, EIndexedAccessIteratorPosition.End⟩ := by
  unfold opInc
  rw [h]
  simp

/-- Claim C4 witness: the amended statement evaluated on a concrete buffer and
end iterator. -/
theorem claim_C4_witness :
    endIter.Position = EIndexedAccessIteratorPosition.End ∧
    opInc ⟨true, [7, 8], 2, 0, 2⟩ endIter =
      ⟨InvalidIndex, EIndexedAccessIteratorPosition.End⟩ :=
  ⟨by decide, claim_C4_end_step_stays_end ⟨true, [7, 8], 2, 0, 2⟩ endIter (by decide)⟩

end RingBufferModel

namespace RingBufferModel

/-- Claim C5: on a well-formed buffer holding at least one element, PopFront
returns the element read at head; if more than one element remains it steps
head one position backward as (head == 0) ? capacity - 1 : head - 1 and
decrements the count (the source's head - 1 % capacity equals head - 1 here
because capacity ≥ count ≥ 2 forces 1 % capacity = 1), and if exactly one
element remains it instead sets head to the invalid sentinel and the count to
0. -/
theorem claim_C5_popFront_spec (es : Nat) (s : RB) (hWF : WF es s)
    (h : 0 < s.elementsInside) :
    PopFront es s =
      (readElem es s.mem s.head,
        if 1 < s.elementsInside then
          { s with elementsInside := s.elementsInside - 1,
                   head := if s.head = 0 then s.capacity - 1 else s.head - 1 }
        else { s with head := InvalidIndex, elementsInside := 0 }) := by
  obtain ⟨hcc, hcap, hiff, hhl, hst⟩ := hWF
  have hI := InvalidIndex_eq
  have hS := SIZE_eq
  have hh : s.head ≠ InvalidIndex := by
    intro he
    have := hiff.mp he
    omega
  have hhlt : s.head < s.capacity := hhl h
  have hptr : PointToValueAtIndex s s.head = some s.head := by
    unfold PointToValueAtIndex
    rw [if_neg (not_le.mpr hhlt)]
  unfold PopFront
  rw [if_neg hh]
  simp only [hptr]
  by_cases h2 : 1 < s.elementsInside
  · rw [if_pos h2, if_pos h2]
    have hm : 1 % s.capacity = 1 := Nat.mod_eq_of_lt (by omega)
    have hcnt : wsub s.elementsInside 1 = s.elementsInside - 1 :=
      wsub_small _ _ (by omega) (by omega)
    by_cases h0 : s.head = 0
    · rw [if_pos h0, if_pos h0, hcnt, wsub_small _ _ (by omega) (by omega)]
    · rw [if_neg h0, if_neg h0, hm, hcnt, wsub_small _ _ (by omega) (by omega)]
  · rw [if_neg h2, if_neg h2]

/-- Claim C5 witness: the PopFront specification evaluated on a concrete
well-formed two-element buffer whose head sits at the wrap boundary 0, so the
backward step wraps to capacity - 1. -/
theorem claim_C5_witness :
    WF 1 ⟨true, [9, 8], 2, 0, 2⟩ ∧ 0 < (2 : Nat) ∧
    PopFront 1 ⟨true, [9, 8], 2, 0, 2⟩ = ([9], ⟨true, [9, 8], 2, 1, 1⟩) := by
  refine ⟨by decide, by decide, ?_⟩
  rw [claim_C5_popFront_spec 1 ⟨true, [9, 8], 2, 0, 2⟩ (by decide) (by decide)]
  decide

/-- Claim C6: Resize with a target capacity of 0, of the sentinel value, or
smaller than the current count, or a Resize whose allocation comes back null,
returns false and leaves the buffer (capacity, count, head and contents)
exactly as it was. -/
theorem claim_C6_resize_rejection (es : Nat) (fresh : Option (List Nat)) (n : Nat)
    (s : RB) (h : n = 0 ∨ n = InvalidIndex ∨ n < s.elementsInside ∨ fresh = none) :
    Resize es fresh n s = (false, s) := by
  unfold Resize
  rcases h with h | h | h | h
  · rw [if_neg (by rintro ⟨h1, h2, h3⟩; omega)]
  · rw [if_neg (by rintro ⟨h1, h2, h3⟩; exact h2 h)]
  · rw [if_neg (by rintro ⟨h1, h2, h3⟩; omega)]
  · subst h
    split <;> rfl

/-- Claim C6 witness: resize of a one-element buffer to capacity 0 fails and
returns the state unchanged. -/
theorem claim_C6_witness :
    Resize 1 (some [0, 0, 0]) 0 ⟨true, [5], 1, 0, 1⟩ = (false, ⟨true, [5], 1, 0, 1⟩) :=
  claim_C6_resize_rejection 1 (some [0, 0, 0]) 0 ⟨true, [5], 1, 0, 1⟩ (Or.inl rfl)

/-- Claim C7: on a buffer that is full (count = capacity) or has no allocated
storage, PushBack, PushFront, EmplaceBack and EmplaceFront all return the
invalid-index sentinel and leave the buffer state unchanged. -/
theorem claim_C7_push_full_rejected (es : Nat) (v : List Nat) (s : RB)
    (h : s.elementsInside = s.capacity ∨ s.alive = false) :
    PushBack es v s = some (InvalidIndex, s) ∧
    PushFront es v s = some (InvalidIndex, s) ∧
    EmplaceBack es v s = some (InvalidIndex, s) ∧
    EmplaceFront es v s = some (InvalidIndex, s) := by
  have hng : ¬(s.alive = true ∧ s.elementsInside < s.capacity) := by
    rcases h with h | h
    · rintro ⟨-, hlt⟩
      omega
    · rintro ⟨ha, -⟩
      rw [h] at ha
      cases ha
  unfold PushBack PushFront EmplaceBack EmplaceFront
  rw [if_neg hng]
  rw [if_neg hng]
  exact ⟨rfl, rfl, rfl, rfl⟩

/-- The full capacity-2 buffer of the claim's concrete scenario, reached by two
successful push_backs. -/
def sC7 : RB := ⟨true, [170, 187], 2, 0, 2⟩

/-- Claim C7 witness: capacity 2, two successful pushes, and the third
push_back returns the invalid-index sentinel while the size stays 2. -/
theorem claim_C7_witness :
    applyOps 1 [Op.pushB [170], Op.pushB [187]] ⟨true, [0, 0], 2, InvalidIndex, 0⟩ =
      some sC7 ∧
    sC7.elementsInside = sC7.capacity ∧ sC7.elementsInside = 2 ∧
    PushBack 1 [204] sC7 = some (InvalidIndex, sC7) :=
  ⟨by decide, by decide, by decide,
    (claim_C7_push_full_rejected 1 [204] sC7 (Or.inl (by decide))).1⟩

end RingBufferModel

namespace RingBufferModel

/-- Claim C9: on a well-formed empty buffer with positive capacity, push_back
of a value v immediately followed by pop_front returns v unchanged and leaves
the buffer empty again; likewise push_front of v immediately followed by
pop_back (both pushes land in slot 0 of the empty buffer and produce the same
successor state). -/
theorem claim_C9_roundtrip (es : Nat) (v : List Nat) (s : RB) (hWF : WF es s)
    (hempty : s.elementsInside = 0) (hcap : 0 < s.capacity) (hv : v.length = es) :
    ∃ s1 : RB, PushBack es v s = some (0, s1) ∧ PushFront es v s = some (0, s1) ∧
      (PopFront es s1).1 = v ∧ (PopFront es s1).2.head = InvalidIndex ∧
      (PopFront es s1).2.elementsInside = 0 ∧
      (PopBack es s1).1 = v ∧ (PopBack es s1).2.head = InvalidIndex ∧
      (PopBack es s1).2.elementsInside = 0 := by
  obtain ⟨hcc, hcap2, hiff, hhl, hst⟩ := hWF
  obtain ⟨halive, hlen⟩ := hst hcap
  have hI := InvalidIndex_eq
  have hS := SIZE_eq
  have hh : s.head = InvalidIndex := hiff.mpr hempty
  have hc0 : ¬ s.capacity = 0 := by omega
  have hcle : ¬ s.capacity ≤ 0 := by omega
  have h0I : ¬ (0 : Nat) = InvalidIndex := by omega
  have htail : GetTailIndex s = InvalidIndex := by
    unfold GetTailIndex
    rw [if_neg hc0, if_pos hh]
  have h01 : wadd 0 1 = 1 := by
    have h := wadd_small 0 1 (by omega)
    simpa using h
  have hptr0 : PointToValueAtIndex s 0 = some 0 := by
    unfold PointToValueAtIndex
    rw [if_neg hcle]
  set s1 : RB := { s with mem := writeElem es s.mem 0 v, head := 0, elementsInside := 1 }
    with hs1
  have hptr1 : PointToValueAtIndex s1 0 = some 0 := by
    unfold PointToValueAtIndex
    rw [hs1, if_neg hcle]
  have hread : readElem es s1.mem 0 = v := by
    rw [hs1]
    exact readElem_writeElem_zero es s.mem v hv
  have htail1 : GetTailIndex s1 = 0 := by
    unfold GetTailIndex
    rw [hs1]
    simp [hc0, h0I]
  refine ⟨s1, ?_, ?_, ?_, ?_, ?_, ?_, ?_, ?_⟩
  · unfold PushBack
    rw [if_pos ⟨halive, by omega⟩]
    simp [htail, hptr0, hh, hempty, h01, hs1]
  · unfold PushFront
    rw [if_pos ⟨halive, by omega⟩]
    simp [hh, hptr0, hempty, h01, hs1]
  · unfold PopFront
    rw [hs1]
    simp [h0I, hptr1, hread, hs1]
  · unfold PopFront
    rw [hs1]
    simp [h0I, hptr1, hs1]
  · unfold PopFront
    rw [hs1]
    simp [h0I, hptr1, hs1]
  · unfold PopBack
    rw [htail1]
    simp [h0I, hptr1, hread, hs1]
  · unfold PopBack
    rw [htail1]
    simp [h0I, hptr1, hs1]
  · unfold PopBack
    rw [htail1]
    simp [h0I, hptr1, hs1]

end RingBufferModel

namespace RingBufferModel

/-- Claim C9 witness: the push/pop round trips evaluated on a concrete empty
capacity-1 buffer and the one-byte value 42. -/
theorem claim_C9_witness :
    WF 1 ⟨true, [0], 1, InvalidIndex, 0⟩ ∧
    ∃ s1 : RB, PushBack 1 [42] ⟨true, [0], 1, InvalidIndex, 0⟩ = some (0, s1) ∧
      PushFront 1 [42] ⟨true, [0], 1, InvalidIndex, 0⟩ = some (0, s1) ∧
      (PopFront 1 s1).1 = [42] ∧ (PopFront 1 s1).2.head = InvalidIndex ∧
      (PopFront 1 s1).2.elementsInside = 0 ∧
      (PopBack 1 s1).1 = [42] ∧ (PopBack 1 s1).2.head = InvalidIndex ∧
      (PopBack 1 s1).2.elementsInside = 0 :=
  ⟨by decide,
    claim_C9_roundtrip 1 [42] ⟨true, [0], 1, InvalidIndex, 0⟩ (by decide) rfl
      (by decide) rfl⟩

/-- On a well-formed non-empty buffer the derived tail is a physical index
inside storage. -/
theorem GetTailIndex_bound (es : Nat) (s : RB) (hWF : WF es s)
    (hc : 0 < s.elementsInside) : GetTailIndex s < s.capacity := by
  have hcc := hWF.1
  have hcap := hWF.2.1
  have hiff := hWF.2.2.1
  have hhl := hWF.2.2.2.1
  have hI := InvalidIndex_eq
  have hS := SIZE_eq
  have hh : s.head ≠ InvalidIndex := by
    intro he
    have := hiff.mp he
    omega
  have hhlt : s.head < s.capacity := hhl hc
  unfold GetTailIndex
  rw [if_neg (by omega : ¬ s.capacity = 0), if_neg hh]
  by_cases h1 : s.elementsInside = 1
  · rw [if_pos h1]
    exact hhlt
  · rw [if_neg h1]
    have hw1 : wsub s.elementsInside 1 = s.elementsInside - 1 :=
      wsub_small _ _ (by omega) (by omega)
    rw [hw1]
    by_cases hcase : s.head < s.elementsInside - 1
    · rw [if_pos hcase]
      rw [wsub_small s.elementsInside s.head (by omega) (by omega)]
      rw [wsub_small (s.elementsInside - s.head) 1 (by omega) (by omega)]
      rw [wsub_small s.capacity (s.elementsInside - s.head - 1) (by omega) (by omega)]
      omega
    · rw [if_neg hcase]
      rw [wsub_small s.head (s.elementsInside - 1) (by omega) (by omega)]
      omega

/-- A push_back on a well-formed buffer with spare capacity succeeds: it
returns a physical index (not the sentinel), writes the value there, bumps
the count by one, keeps capacity and storage length, sets head on a
previously empty buffer and preserves well-formedness. -/
theorem pushBack_success (es : Nat) (v : List Nat) (s : RB) (hWF : WF es s)
    (hv : v.length = es) (hroom : s.elementsInside < s.capacity) :
    ∃ i s1, PushBack es v s = some (i, s1) ∧ i ≠ InvalidIndex ∧ WF es s1 ∧
      s1.elementsInside = s.elementsInside + 1 ∧ s1.capacity = s.capacity := by
  have hcc := hWF.1
  have hcap := hWF.2.1
  have hiff := hWF.2.2.1
  have hhl := hWF.2.2.2.1
  have hst := hWF.2.2.2.2
  have hI := InvalidIndex_eq
  have hS := SIZE_eq
  have hcap0 : 0 < s.capacity := by omega
  obtain ⟨halive, hlen⟩ := hst hcap0
  set idx := if GetTailIndex s = InvalidIndex then 0 else GetNextTailIndex s with hidxdef
  have hidxlt : idx < s.capacity := by
    rw [hidxdef]
    by_cases hte : GetTailIndex s = InvalidIndex
    · rw [if_pos hte]
      omega
    · rw [if_neg hte]
      have hc0 : 0 < s.elementsInside := by
        by_contra h0
        have hz : s.elementsInside = 0 := by omega
        apply hte
        have hhINV : s.head = InvalidIndex := hiff.mpr hz
        unfold GetTailIndex
        rw [if_neg (by omega : ¬ s.capacity = 0), if_pos hhINV]
      have htb := GetTailIndex_bound es s hWF hc0
      unfold GetNextTailIndex
      rw [if_neg (by omega : ¬ (s.capacity = 0 ∨ s.capacity = s.elementsInside))]
      by_cases ht0 : GetTailIndex s = 0
      · rw [if_pos ht0, wsub_small s.capacity 1 (by omega) (by omega)]
        omega
      · rw [if_neg ht0, wsub_small (GetTailIndex s) 1 (by omega) (by omega)]
        omega
  have hptr : PointToValueAtIndex s idx = some idx := by
    unfold PointToValueAtIndex
    rw [if_neg (not_le.mpr hidxlt)]
  have hwadd : wadd s.elementsInside 1 = s.elementsInside + 1 :=
    wadd_small _ _ (by omega)
  refine ⟨idx,
    { s with mem := writeElem es s.mem idx v,
             elementsInside := s.elementsInside + 1,
             head := if s.head = InvalidIndex then idx else s.head },
    ?_, by omega, ?_, rfl, rfl⟩
  · unfold PushBack
    rw [if_pos ⟨halive, hroom⟩]
    simp only [← hidxdef, hptr, hwadd]
  · have hhead1lt : (if s.head = InvalidIndex then idx else s.head) < s.capacity := by
      by_cases hhe : s.head = InvalidIndex
      · rw [if_pos hhe]
        exact hidxlt
      · rw [if_neg hhe]
        apply hhl
        by_contra h0
        exact hhe (hiff.mpr (by omega))
    refine ⟨?_, hcap, ?_, ?_, ?_⟩
    · show s.elementsInside + 1 ≤ s.capacity
      omega
    · show (if s.head = InvalidIndex then idx else s.head) = InvalidIndex ↔
        s.elementsInside + 1 = 0
      constructor
      · intro he
        rw [he] at hhead1lt
        omega
      · intro he
        omega
    · intro _
      exact hhead1lt
    · intro _
      refine ⟨halive, ?_⟩
      show (writeElem es s.mem idx v).length = s.capacity * es
      rw [writeElem_length es s.mem v idx hv ?_]
      · exact hlen
      · rw [hlen]
        have h1 : (idx + 1) * es ≤ s.capacity * es :=
          Nat.mul_le_mul_right es (by omega)
        rw [Nat.add_mul, Nat.one_mul] at h1
        omega

/-- Repeated push_backs all succeed on a well-formed buffer with room for all
of them, adding exactly their number to the count and leaving capacity
unchanged. -/
theorem pushAll_ok (es : Nat) (vs : List (List Nat)) (s : RB) (hWF : WF es s)
    (hlen : ∀ v ∈ vs, v.length = es)
    (hfit : s.elementsInside + vs.length ≤ s.capacity) :
    ∃ s2, pushAll es vs s = some s2 ∧ WF es s2 ∧
      s2.elementsInside = s.elementsInside + vs.length ∧
      s2.capacity = s.capacity := by
  induction vs generalizing s with
  | nil => exact ⟨s, rfl, hWF, by simp, rfl⟩
  | cons v rest ih =>
    have hv : v.length = es := hlen v (by simp)
    have hroom : s.elementsInside < s.capacity := by
      simp only [List.length_cons] at hfit
      omega
    obtain ⟨i, s1, hpb, hi, hWF1, hcnt, hcap⟩ := pushBack_success es v s hWF hv hroom
    obtain ⟨s2, hall, hWF2, hcnt2, hcap2⟩ :=
      ih s1 hWF1 (fun w hw => hlen w (by simp [hw]))
        (by simp only [List.length_cons] at hfit; omega)
    refine ⟨s2, ?_, hWF2, ?_, by rw [hcap2, hcap]⟩
    · unfold pushAll
      rw [hpb]
      simp only [if_neg hi]
      exact hall
    · simp only [List.length_cons]
      omega

/-- Claim C10: Clear makes the buffer logically empty (size 0, head the
invalid sentinel) while leaving capacity, the storage block and its bytes
unchanged, and afterwards any batch of pushes up to the old capacity succeeds
(each push_back returning a real index). -/
theorem claim_C10_clear_spec (es : Nat) (s : RB) (vs : List (List Nat))
    (hWF : WF es s) (hlen : ∀ v ∈ vs, v.length = es)
    (hfit : vs.length ≤ s.capacity) :
    (Clear s).elementsInside = 0 ∧ (Clear s).head = InvalidIndex ∧
    (Clear s).capacity = s.capacity ∧ (Clear s).mem = s.mem ∧
    (Clear s).alive = s.alive ∧
    ∃ s2, pushAll es vs (Clear s) = some s2 ∧ s2.elementsInside = vs.length ∧
      s2.capacity = s.capacity := by
  have hWFc : WF es (Clear s) := by
    obtain ⟨hcc, hcap, hiff, hhl, hst⟩ := hWF
    exact ⟨Nat.zero_le _, hcap, by simp [Clear], by simp [Clear], hst⟩
  refine ⟨rfl, rfl, rfl, rfl, rfl, ?_⟩
  obtain ⟨s2, h1, h2, h3, h4⟩ := pushAll_ok es vs (Clear s) hWFc hlen
    (by show 0 + vs.length ≤ s.capacity; omega)
  exact ⟨s2, h1, by simpa [Clear] using h3, h4⟩

/-- Claim C10 witness: clearing a concrete two-element capacity-2 buffer and
then pushing two fresh values succeeds. -/
theorem claim_C10_witness :
    WF 1 ⟨true, [5, 6], 2, 0, 2⟩ ∧
    (Clear ⟨true, [5, 6], 2, 0, 2⟩).elementsInside = 0 ∧
    (Clear ⟨true, [5, 6], 2, 0, 2⟩).head = InvalidIndex ∧
    (Clear ⟨true, [5, 6], 2, 0, 2⟩).capacity = 2 ∧
    (Clear ⟨true, [5, 6], 2, 0, 2⟩).mem = [5, 6] ∧
    (Clear ⟨true, [5, 6], 2, 0, 2⟩).alive = true ∧
    ∃ s2, pushAll 1 [[1], [2]] (Clear ⟨true, [5, 6], 2, 0, 2⟩) = some s2 ∧
      s2.elementsInside = 2 ∧ s2.capacity = 2 := by
  have h := claim_C10_clear_spec 1 ⟨true, [5, 6], 2, 0, 2⟩ [[1], [2]]
    (by decide) (by decide) (by decide)
  exact ⟨by decide, h.1, h.2.1, h.2.2.1, h.2.2.2.1, h.2.2.2.2.1, h.2.2.2.2.2⟩

end RingBufferModel

namespace RingBufferModel

/-- A non-sentinel derived tail implies a non-sentinel head and a positive
capacity. -/
theorem tail_ne_inv (s : RB) (h : GetTailIndex s ≠ InvalidIndex) :
    s.head ≠ InvalidIndex ∧ s.capacity ≠ 0 := by
  constructor
  · intro hh
    apply h
    unfold GetTailIndex
    by_cases hc : s.capacity = 0
    · rw [if_pos hc]
    · rw [if_neg hc, if_pos hh]
  · intro hc
    apply h
    unfold GetTailIndex
    rw [if_pos hc]

/-- A non-crashing PushBack preserves the operation invariant. -/
theorem cinv_pushBack (es : Nat) (v : List Nat) (s : RB) (i : Nat) (s1 : RB)
    (hC : CInv s) (h : PushBack es v s = some (i, s1)) : CInv s1 := by
  obtain ⟨hcc, hcap, hiff, hhsz⟩ := hC
  have hI := InvalidIndex_eq
  have hS := SIZE_eq
  unfold PushBack at h
  by_cases hg : s.alive = true ∧ s.elementsInside < s.capacity
  · rw [if_pos hg] at h
    cases hp : PointToValueAtIndex s
        (if GetTailIndex s = InvalidIndex then 0 else GetNextTailIndex s) with
    | none =>
      simp only [hp] at h
      exact Option.noConfusion h
    | some p =>
      simp only [hp] at h
      have hplt : (if GetTailIndex s = InvalidIndex then 0 else GetNextTailIndex s) <
          s.capacity := by
        by_contra hle
        unfold PointToValueAtIndex at hp
        rw [if_pos (by omega)] at hp
        cases hp
      rw [Option.some.injEq, Prod.mk.injEq] at h
      obtain ⟨h1, h2⟩ := h
      subst h2
      have hwadd : wadd s.elementsInside 1 = s.elementsInside + 1 :=
        wadd_small _ _ (by omega)
      refine ⟨?_, hcap, ?_, ?_⟩
      · show wadd s.elementsInside 1 ≤ s.capacity
        rw [hwadd]
        omega
      · show (if s.head = InvalidIndex
            then if GetTailIndex s = InvalidIndex then 0 else GetNextTailIndex s
            else s.head) = InvalidIndex ↔ wadd s.elementsInside 1 = 0
        rw [hwadd]
        by_cases hh : s.head = InvalidIndex
        · rw [if_pos hh]
          constructor
          · intro he
            omega
          · intro he
            omega
        · rw [if_neg hh]
          constructor
          · intro he
            exact absurd he hh
          · intro he
            omega
      · show (if s.head = InvalidIndex
            then if GetTailIndex s = InvalidIndex then 0 else GetNextTailIndex s
            else s.head) < SIZE
        by_cases hh : s.head = InvalidIndex
        · rw [if_pos hh]
          omega
        · rw [if_neg hh]
          omega
  · rw [if_neg hg, Option.some.injEq, Prod.mk.injEq] at h
    obtain ⟨h1, h2⟩ := h
    subst h2
    exact ⟨hcc, hcap, hiff, hhsz⟩

/-- A non-crashing EmplaceBack preserves the operation invariant (same write
as PushBack). -/
theorem cinv_emplaceBack (es : Nat) (v : List Nat) (s : RB) (i : Nat) (s1 : RB)
    (hC : CInv s) (h : EmplaceBack es v s = some (i, s1)) : CInv s1 := by
  have hpb : PushBack es v s = some (i, s1) := by
    unfold PushBack
    unfold EmplaceBack at h
    exact h
  exact cinv_pushBack es v s i s1 hC hpb

/-- A non-crashing PushFront preserves the operation invariant. -/
theorem cinv_pushFront (es : Nat) (v : List Nat) (s : RB) (i : Nat) (s1 : RB)
    (hC : CInv s) (h : PushFront es v s = some (i, s1)) : CInv s1 := by
  obtain ⟨hcc, hcap, hiff, hhsz⟩ := hC
  have hI := InvalidIndex_eq
  have hS := SIZE_eq
  unfold PushFront at h
  by_cases hg : s.alive = true ∧ s.elementsInside < s.capacity
  · rw [if_pos hg] at h
    cases hp : PointToValueAtIndex s
        (if s.head = InvalidIndex then 0 else GetNextHeadIndex s) with
    | none =>
      simp only [hp] at h
      exact Option.noConfusion h
    | some p =>
      simp only [hp] at h
      have hplt : (if s.head = InvalidIndex then 0 else GetNextHeadIndex s) <
          s.capacity := by
        by_contra hle
        unfold PointToValueAtIndex at hp
        rw [if_pos (by omega)] at hp
        cases hp
      rw [Option.some.injEq, Prod.mk.injEq] at h
      obtain ⟨h1, h2⟩ := h
      subst h2
      have hwadd : wadd s.elementsInside 1 = s.elementsInside + 1 :=
        wadd_small _ _ (by omega)
      refine ⟨?_, hcap, ?_, ?_⟩
      · show wadd s.elementsInside 1 ≤ s.capacity
        rw [hwadd]
        omega
      · show (if s.head = InvalidIndex then 0 else GetNextHeadIndex s) = InvalidIndex ↔
          wadd s.elementsInside 1 = 0
        rw [hwadd]
        constructor
        · intro he
          omega
        · intro he
          omega
      · show (if s.head = InvalidIndex then 0 else GetNextHeadIndex s) < SIZE
        omega
  · rw [if_neg hg, Option.some.injEq, Prod.mk.injEq] at h
    obtain ⟨h1, h2⟩ := h
    subst h2
    exact ⟨hcc, hcap, hiff, hhsz⟩

/-- A non-crashing EmplaceFront preserves the operation invariant. -/
theorem cinv_emplaceFront (es : Nat) (v : List Nat) (s : RB) (i : Nat) (s1 : RB)
    (hC : CInv s) (h : EmplaceFront es v s = some (i, s1)) : CInv s1 := by
  have hpf : PushFront es v s = some (i, s1) := by
    unfold PushFront
    unfold EmplaceFront at h
    exact h
  exact cinv_pushFront es v s i s1 hC hpf

/-- PopFront preserves the operation invariant. -/
theorem cinv_popFront (es : Nat) (s : RB) (hC : CInv s) : CInv (PopFront es s).2 := by
  obtain ⟨hcc, hcap, hiff, hhsz⟩ := hC
  have hI := InvalidIndex_eq
  have hS := SIZE_eq
  unfold PopFront
  by_cases hh : s.head = InvalidIndex
  · rw [if_pos hh]
    exact ⟨hcc, hcap, hiff, hhsz⟩
  · rw [if_neg hh]
    have hc1 : s.elementsInside ≠ 0 := fun h0 => hh (hiff.mpr h0)
    have hgoal : CInv (if 1 < s.elementsInside then
        { s with elementsInside := wsub s.elementsInside 1,
                 head := if s.head = 0 then wsub s.capacity 1
                         else wsub s.head (1 % s.capacity) }
      else { s with head := InvalidIndex, elementsInside := 0 }) := by
      by_cases h2 : 1 < s.elementsInside
      · rw [if_pos h2]
        have hm : 1 % s.capacity = 1 := Nat.mod_eq_of_lt (by omega)
        have hcnt : wsub s.elementsInside 1 = s.elementsInside - 1 :=
          wsub_small _ _ (by omega) (by omega)
        refine ⟨?_, hcap, ?_, ?_⟩
        · show wsub s.elementsInside 1 ≤ s.capacity
          omega
        · show (if s.head = 0 then wsub s.capacity 1 else wsub s.head (1 % s.capacity)) =
            InvalidIndex ↔ wsub s.elementsInside 1 = 0
          rw [hcnt]
          by_cases h0 : s.head = 0
          · rw [if_pos h0, wsub_small s.capacity 1 (by omega) (by omega)]
            constructor
            · intro he
              omega
            · intro he
              omega
          · rw [if_neg h0, hm, wsub_small s.head 1 (by omega) (by omega)]
            constructor
            · intro he
              omega
            · intro he
              omega
        · show (if s.head = 0 then wsub s.capacity 1 else wsub s.head (1 % s.capacity)) <
            SIZE
          by_cases h0 : s.head = 0
          · rw [if_pos h0, wsub_small s.capacity 1 (by omega) (by omega)]
            omega
          · rw [if_neg h0, hm, wsub_small s.head 1 (by omega) (by omega)]
            omega
      · rw [if_neg h2]
        refine ⟨?_, hcap, ?_, ?_⟩
        · show (0 : Nat) ≤ s.capacity
          omega
        · show InvalidIndex = InvalidIndex ↔ (0 : Nat) = 0
          constructor
          · intro
            rfl
          · intro
            rfl
        · show InvalidIndex < SIZE
          omega
    cases hp : PointToValueAtIndex s s.head with
    | none =>
      simp only [hp]
      exact hgoal
    | some p =>
      simp only [hp]
      exact hgoal

/-- PopBack preserves the operation invariant. -/
theorem cinv_popBack (es : Nat) (s : RB) (hC : CInv s) : CInv (PopBack es s).2 := by
  obtain ⟨hcc, hcap, hiff, hhsz⟩ := hC
  have hI := InvalidIndex_eq
  have hS := SIZE_eq
  unfold PopBack
  by_cases ht : GetTailIndex s = InvalidIndex
  · rw [if_pos ht]
    exact ⟨hcc, hcap, hiff, hhsz⟩
  · rw [if_neg ht]
    obtain ⟨hh, hc0⟩ := tail_ne_inv s ht
    have hc1 : s.elementsInside ≠ 0 := fun h0 => hh (hiff.mpr h0)
    have hgoal : CInv (if 1 < s.elementsInside then
        { s with elementsInside := wsub s.elementsInside 1 }
      else { s with head := InvalidIndex, elementsInside := 0 }) := by
      by_cases h2 : 1 < s.elementsInside
      · rw [if_pos h2]
        have hcnt : wsub s.elementsInside 1 = s.elementsInside - 1 :=
          wsub_small _ _ (by omega) (by omega)
        refine ⟨?_, hcap, ?_, ?_⟩
        · show wsub s.elementsInside 1 ≤ s.capacity
          omega
        · show s.head = InvalidIndex ↔ wsub s.elementsInside 1 = 0
          rw [hcnt]
          constructor
          · intro he
            exact absurd he hh
          · intro he
            omega
        · exact hhsz
      · rw [if_neg h2]
        refine ⟨?_, hcap, ?_, ?_⟩
        · show (0 : Nat) ≤ s.capacity
          omega
        · show InvalidIndex = InvalidIndex ↔ (0 : Nat) = 0
          constructor
          · intro
            rfl
          · intro
            rfl
        · show InvalidIndex < SIZE
          omega
    cases hp : PointToValueAtIndex s (GetTailIndex s) with
    | none =>
      simp only [hp]
      exact hgoal
    | some p =>
      simp only [hp]
      exact hgoal

/-- Clear preserves the operation invariant. -/
theorem cinv_clear (s : RB) (hC : CInv s) : CInv (Clear s) := by
  have hI := InvalidIndex_eq
  have hS := SIZE_eq
  refine ⟨?_, hC.2.1, ?_, ?_⟩
  · show (0 : Nat) ≤ s.capacity
    omega
  · show InvalidIndex = InvalidIndex ↔ (0 : Nat) = 0
    constructor
    · intro
      rfl
    · intro
      rfl
  · show InvalidIndex < SIZE
    omega

/-- Resize with a representable target preserves the operation invariant. -/
theorem cinv_resize (es : Nat) (fresh : Option (List Nat)) (n : Nat) (s : RB)
    (hC : CInv s) (hn : n < SIZE) : CInv (Resize es fresh n s).2 := by
  obtain ⟨hcc, hcap, hiff, hhsz⟩ := hC
  have hI := InvalidIndex_eq
  have hS := SIZE_eq
  unfold Resize
  by_cases hg : 0 < n ∧ n ≠ InvalidIndex ∧ s.elementsInside ≤ n
  · rw [if_pos hg]
    obtain ⟨hn0, hnI, hcn⟩ := hg
    have hnlt : n < InvalidIndex := by omega
    cases fresh with
    | none => exact ⟨hcc, hcap, hiff, hhsz⟩
    | some newMem =>
      dsimp only
      by_cases ha : s.alive = true
      · rw [if_pos ha]
        by_cases hne : 0 < s.elementsInside ∧ s.head ≠ InvalidIndex
        · rw [if_pos hne]
          by_cases hw : s.head <
              (if GetTailIndex s ≠ InvalidIndex then GetTailIndex s else 0)
          · rw [if_pos hw]
            have hcnt : wsub s.elementsInside 1 = s.elementsInside - 1 :=
              wsub_small _ _ (by omega) (by omega)
            refine ⟨hcn, hnlt, ?_, ?_⟩
            · show wsub s.elementsInside 1 = InvalidIndex ↔ s.elementsInside = 0
              rw [hcnt]
              constructor
              · intro he
                omega
              · intro he
                omega
            · show wsub s.elementsInside 1 < SIZE
              omega
          · rw [if_neg hw]
            refine ⟨hcn, hnlt, ?_, hhsz⟩
            show s.head = InvalidIndex ↔ s.elementsInside = 0
            constructor
            · intro he
              exact absurd he hne.2
            · intro he
              omega
        · rw [if_neg hne]
          exact ⟨hcn, hnlt, hiff, hhsz⟩
      · rw [if_neg ha]
        exact ⟨hcn, hnlt, hiff, hhsz⟩
  · rw [if_neg hg]
    exact ⟨hcc, hcap, hiff, hhsz⟩

/-- Every single non-crashing realistic operation preserves the operation
invariant. -/
theorem cinv_applyOp (es : Nat) (op : Op) (s s1 : RB) (hC : CInv s)
    (hok : OpOK op = true) (h : applyOp es op s = some s1) : CInv s1 := by
  cases op with
  | pushB v =>
    simp only [applyOp] at h
    cases hp : PushBack es v s with
    | none =>
      rw [hp] at h
      exact Option.noConfusion h
    | some r =>
      rw [hp] at h
      have h2 : r.2 = s1 := Option.some.inj h
      subst h2
      exact cinv_pushBack es v s r.1 r.2 hC (by rw [hp])
  | pushF v =>
    simp only [applyOp] at h
    cases hp : PushFront es v s with
    | none =>
      rw [hp] at h
      exact Option.noConfusion h
    | some r =>
      rw [hp] at h
      have h2 : r.2 = s1 := Option.some.inj h
      subst h2
      exact cinv_pushFront es v s r.1 r.2 hC (by rw [hp])
  | emplB v =>
    simp only [applyOp] at h
    cases hp : EmplaceBack es v s with
    | none =>
      rw [hp] at h
      exact Option.noConfusion h
    | some r =>
      rw [hp] at h
      have h2 : r.2 = s1 := Option.some.inj h
      subst h2
      exact cinv_emplaceBack es v s r.1 r.2 hC (by rw [hp])
  | emplF v =>
    simp only [applyOp] at h
    cases hp : EmplaceFront es v s with
    | none =>
      rw [hp] at h
      exact Option.noConfusion h
    | some r =>
      rw [hp] at h
      have h2 : r.2 = s1 := Option.some.inj h
      subst h2
      exact cinv_emplaceFront es v s r.1 r.2 hC (by rw [hp])
  | popF =>
    simp only [applyOp] at h
    have h2 : (PopFront es s).2 = s1 := Option.some.inj h
    subst h2
    exact cinv_popFront es s hC
  | popB =>
    simp only [applyOp] at h
    have h2 : (PopBack es s).2 = s1 := Option.some.inj h
    subst h2
    exact cinv_popBack es s hC
  | clear =>
    simp only [applyOp] at h
    have h2 : Clear s = s1 := Option.some.inj h
    subst h2
    exact cinv_clear s hC
  | resize fresh n =>
    simp only [applyOp] at h
    have h2 : (Resize es fresh n s).2 = s1 := Option.some.inj h
    subst h2
    unfold OpOK at hok
    exact cinv_resize es fresh n s hC (of_decide_eq_true hok)

/-- A non-crashing sequence of realistic operations preserves the operation
invariant. -/
theorem cinv_applyOps (es : Nat) (ops : List Op) (s s1 : RB) (hC : CInv s)
    (hok : ∀ op ∈ ops, OpOK op = true) (h : applyOps es ops s = some s1) :
    CInv s1 := by
  induction ops generalizing s with
  | nil =>
    simp only [applyOps] at h
    have h2 : s = s1 := Option.some.inj h
    subst h2
    exact hC
  | cons op rest ih =>
    simp only [applyOps] at h
    cases hstep : applyOp es op s with
    | none =>
      rw [hstep] at h
      exact Option.noConfusion h
    | some t =>
      rw [hstep] at h
      exact ih t (cinv_applyOp es op s t hC (hok op (by simp)) hstep)
        (fun o ho => hok o (by simp [ho])) h

/-- Claim C8: along every sequence of (non-crashing) push / emplace / pop /
clear / resize operations started from a constructed buffer, 0 ≤ count ≤
capacity holds and head equals the invalid sentinel exactly when count = 0. -/
theorem claim_C8_invariant_preserved (es : Nat) (ops : List Op) (s0 s : RB)
    (h0 : Constructed es s0) (hops : ∀ op ∈ ops, OpOK op = true)
    (happ : applyOps es ops s0 = some s) :
    s.elementsInside ≤ s.capacity ∧ (s.head = InvalidIndex ↔ s.elementsInside = 0) := by
  have hI := InvalidIndex_eq
  have hS := SIZE_eq
  have hC0 : CInv s0 := by
    rcases h0 with ⟨hc, hh, he⟩ | ⟨ha, hc, hcap, hh, he, hl⟩
    · exact ⟨by omega, by omega, ⟨fun _ => he, fun _ => hh⟩, by omega⟩
    · exact ⟨by omega, hcap, ⟨fun _ => he, fun _ => hh⟩, by omega⟩
  have hCs := cinv_applyOps es ops s0 s hC0 hops happ
  exact ⟨hCs.1, hCs.2.2.1⟩

/-- Claim C8 witness: the invariant conclusion evaluated after a concrete
push / pop / clear run from a freshly constructed capacity-1 buffer. -/
theorem claim_C8_witness :
    Constructed 1 ⟨true, [0], 1, InvalidIndex, 0⟩ ∧
    (∀ op ∈ [Op.pushB [7], Op.popF, Op.clear], OpOK op = true) ∧
    applyOps 1 [Op.pushB [7], Op.popF, Op.clear] ⟨true, [0], 1, InvalidIndex, 0⟩ =
      some ⟨true, [7], 1, InvalidIndex, 0⟩ ∧
    ((⟨true, [7], 1, InvalidIndex, 0⟩ : RB).elementsInside ≤
        (⟨true, [7], 1, InvalidIndex, 0⟩ : RB).capacity ∧
      ((⟨true, [7], 1, InvalidIndex, 0⟩ : RB).head = InvalidIndex ↔
        (⟨true, [7], 1, InvalidIndex, 0⟩ : RB).elementsInside = 0)) :=
  ⟨by decide, by decide, by decide,
    claim_C8_invariant_preserved 1 [Op.pushB [7], Op.popF, Op.clear]
      ⟨true, [0], 1, InvalidIndex, 0⟩ ⟨true, [7], 1, InvalidIndex, 0⟩
      (by decide) (by decide) (by decide)⟩

end RingBufferModel
